import Mathlib

/-!
Verification of `Loop.py`, a sequential spec-runner.

The script walks the Markdown documents of a specs directory in ascending
name order, sends each one to an external agent process, gates progress on a
fixed list of verification commands, and records completed documents in a
JSON state file.

Embedding choices:

- file names are strings compared code-point lexicographically (how Python
  compares the paths that `sorted` sees), stated on the underlying character
  lists so comparisons evaluate on concrete names;
- the external world (directory existence, glob results, the exit codes the
  agent and each verification command would return for a given spec) is an
  `Env` record;
- the unbounded `while True` loop of `main` is fuel-bounded (`runLoop`);
  every committed pass strictly grows `done`, so any fuel beyond the number
  of files changes nothing;
- the observable side effects (agent invocations, verification-command runs,
  state-file writes) are recorded as an `Event` trace;
- the parsed JSON object of the state file is an association list of fields
  (`JVal`), and the byte-level behaviour of `save_state`'s plain
  `Path.write_text` under a crash is modelled by `save_state_crashed`.
-/

namespace Loop

/-- Lexicographic order on file names, as Python compares the path strings
that `sorted` receives (code-point lexicographic).  Stated on the underlying
character lists so that it evaluates on concrete names. -/
def nameLe (a b : String) : Prop := a.data ≤ b.data

instance : DecidableRel nameLe := fun a b => inferInstanceAs (Decidable (a.data ≤ b.data))

instance : IsTotal String nameLe := ⟨fun a b => le_total a.data b.data⟩

instance : IsTrans String nameLe := ⟨fun _ _ _ hab hbc => le_trans hab hbc⟩

instance : IsAntisymm String nameLe := by
  refine ⟨fun a b hab hba => ?_⟩
  cases a
  cases b
  simp only [nameLe] at hab hba
  exact congrArg String.mk (le_antisymm hab hba)

instance : IsRefl String nameLe := ⟨fun a => le_refl a.data⟩

/-- Embeds `sorted(SPECS_DIR.glob("*.md"))` (Loop.py line 36): the names the
glob yields, sorted ascending. -/
def sortNames (files : List String) : List String := List.insertionSort nameLe files

/-- Embeds `get_next_spec` (Loop.py lines 35-40): sort the glob result, walk
it in order and return the first name that is not in `done`; `none` when
every name is in `done` (and in particular when there are no files). -/
def get_next_spec (files : List String) (done : List String) : Option String :=
  (sortNames files).find? (fun spec => !(decide (spec ∈ done)))

/-- Embeds the call protocol of `get_next_spec`: the caller passes the list
`state["done"]`; the body's only use of it is the membership test
`spec.name not in done` (Loop.py line 38), so the list comes back exactly as
it went in.  The pair returns the result together with the `done` list as it
stands after the call. -/
def get_next_spec_call (files done : List String) : Option String × List String :=
  (get_next_spec files done, done)

/-- Embeds `VERIFY_COMMANDS` (Loop.py lines 18-21): configuration data, two
external commands run in order after each spec. -/
def VERIFY_COMMANDS : List (List String) :=
  [["pnpm", "-C", "apps/crm", "tsc"], ["pnpm", "-C", "apps/crm", "build"]]

/-- Embeds the verification loop of `main` (Loop.py lines 114-118): run each
command in order and stop at the first non-zero exit code.  The input lists
the exit code each configured command would return; the output is the exit
codes of the commands actually invoked, in order, together with whether all
of them passed. -/
def runVerification : List Nat → List Nat × Bool
  | [] => ([], true)
  | rc :: rest =>
      if rc ≠ 0 then ([rc], false)
      else
        let r := runVerification rest
        (rc :: r.1, r.2)

/-- Observable side effects of a run: an agent invocation for a spec with the
exit code the agent returned, one verification-command run with its exit
code, and a write of the state file recording the given completed list. -/
inductive Event where
  | agentInvoked (spec : String) (exitCode : Nat)
  | verifyStep (spec : String) (exitCode : Nat)
  | stateSaved (done : List String)
  deriving DecidableEq

/-- The environment a run executes in: whether `SPECS_DIR` exists, the names
the glob yields, the parsed `done` list of the state file when that file
exists, and the exit codes the external agent and the verification commands
would return while a given spec is being processed. -/
structure Env where
  specsExists : Bool
  files : List String
  stored : Option (List String)
  agentCode : String → Nat
  verifyCodes : String → List Nat

/-- Embeds `load_state` (Loop.py lines 27-30): the parsed state file when it
exists, else the fresh record, whose `done` list is empty. -/
def load_state (stored : Option (List String)) : List String := stored.getD []

/-- Outcome of one pass of the `while True` body. -/
inductive IterOut where
  | allDone
  | haltedAgent (spec : String)
  | haltedVerify (spec : String)
  | committed (spec : String)
  deriving DecidableEq

/-- Embeds one pass of the `while True` body (Loop.py lines 76-125): select
the next spec (exit the loop when none is left); invoke the agent and stop on
a non-zero exit; run the verification commands and stop at the first failure;
otherwise append the spec's name to `state["done"]` and save the state.
Returns the outcome, the events of the pass, and the `done` list after it. -/
def iteration (env : Env) (done : List String) : IterOut × List Event × List String :=
  match get_next_spec env.files done with
  | none => (.allDone, [], done)
  | some spec =>
      let ac := env.agentCode spec
      if ac ≠ 0 then
        (.haltedAgent spec, [.agentInvoked spec ac], done)
      else
        let v := runVerification (env.verifyCodes spec)
        if v.2 = false then
          (.haltedVerify spec, .agentInvoked spec ac :: v.1.map (Event.verifyStep spec), done)
        else
          (.committed spec,
            .agentInvoked spec ac :: v.1.map (Event.verifyStep spec)
              ++ [.stateSaved (done ++ [spec])],
            done ++ [spec])

/-- Terminal outcome of a run of the loop. -/
inductive Outcome where
  | completed
  | haltedAgent (spec : String)
  | haltedVerify (spec : String)
  | fuelOut
  deriving DecidableEq

/-- Result of a run of the loop: its outcome, its event trace, and the
`done` list as persisted when it ends. -/
structure RunResult where
  outcome : Outcome
  events : List Event
  final : List String
  deriving DecidableEq

/-- Embeds the `while True` loop of `main` (Loop.py lines 76-125),
fuel-bounded: each committed pass strictly shrinks the set of unfinished
specs, so any fuel larger than `env.files.length` is enough for the source's
unbounded loop. -/
def runLoop (env : Env) : Nat → List String → RunResult
  | 0, done => ⟨.fuelOut, [], done⟩
  | fuel + 1, done =>
      match iteration env done with
      | (.allDone, evs, d) => ⟨.completed, evs, d⟩
      | (.haltedAgent spec, evs, d) => ⟨.haltedAgent spec, evs, d⟩
      | (.haltedVerify spec, evs, d) => ⟨.haltedVerify spec, evs, d⟩
      | (.committed _, evs, d) =>
          let r := runLoop env fuel d
          ⟨r.outcome, evs ++ r.events, r.final⟩

/-- Result of `main`: either the fatal `sys.exit(1)` taken when `SPECS_DIR`
is absent (Loop.py lines 70-72), or a run of the loop. -/
inductive MainResult where
  | exitNoSpecsDir (exitCode : Nat)
  | ran (r : RunResult)
  deriving DecidableEq

/-- Embeds `main` (Loop.py lines 69-125): when the specs directory is absent,
print a diagnostic and `sys.exit(1)` before loading state or entering the
loop; otherwise load the state and run the loop. -/
def main (env : Env) (fuel : Nat) : MainResult :=
  if env.specsExists then .ran (runLoop env fuel (load_state env.stored))
  else .exitNoSpecsDir 1

/-- Events of a `main` run: none on the fatal early exit. -/
def mainEvents : MainResult → List Event
  | .exitNoSpecsDir _ => []
  | .ran r => r.events

/-- The saved `done` lists of an event trace, in the order they were
written. -/
def savedStates : List Event → List (List String)
  | [] => []
  | .stateSaved d :: es => d :: savedStates es
  | .agentInvoked _ _ :: es => savedStates es
  | .verifyStep _ _ :: es => savedStates es

/-- A process invocation: the argument vector handed to the operating system
and the payload fed to the process on standard input. -/
structure Invocation where
  argv : List String
  stdinPayload : String
  deriving DecidableEq

/-- Embeds `run_claude` (Loop.py lines 49-63): the argument vector is the
fixed list built on lines 50-57 — the prompt is not among the arguments —
and the whole prompt is fed to the process on standard input
(`subprocess.run(cmd, input=prompt, ...)`, line 59). -/
def run_claude (prompt : String) : Invocation :=
  { argv := ["claude", "-p", "--permission-mode", "acceptEdits", "--add-dir", "."]
    stdinPayload := prompt }

/-- JSON text of a quoted string item as `json.dumps` renders it at indent
level 2 inside the `done` array (names in this development contain no
characters that JSON escapes). -/
def dumpItem (s : String) : String := "    \"" ++ s ++ "\""

/-- JSON text of the `done` array as `json.dumps(..., indent=2)` renders a
list: `[]` when empty, else one indented quoted item per line. -/
def dumpDoneArr (done : List String) : String :=
  if done = [] then "[]"
  else "[\n" ++ String.intercalate ",\n" (done.map dumpItem) ++ "\n  ]"

/-- JSON text `json.dumps({"done": [...]}, indent=2)` of a state record, the
exact text `save_state` writes (Loop.py line 33). -/
def dumpState (done : List String) : String :=
  "\x7b\n  \"done\": " ++ dumpDoneArr done ++ "\n\x7d"

/-- Embeds `save_state` (Loop.py lines 32-33) under a crash during
persistence.  `STATE_FILE.write_text(json.dumps(state, indent=2))` opens the
state file truncating and writes the new text in place — there is no
temporary file and no atomic rename in the source — so a crash after `k`
bytes of the write leaves the file holding exactly the first `k` bytes of
the new text.  Returns that content as a character list. -/
def save_state_crashed (newDone : List String) (k : Nat) : List Char :=
  (dumpState newDone).data.take k

/-- JSON values, as far as the shape of the state file needs: the `done`
entry is an array, other top-level entries may hold any of these forms. -/
inductive JVal where
  | jstr (s : String)
  | jnum (n : Int)
  | jbool (b : Bool)
  | jnull
  | jarr (xs : List JVal)

/-- Embeds `state["done"].append(spec.name)` (Loop.py line 121) on the value
stored under `"done"`: one more string at the end of the array.  On a
non-array value the source would raise instead; the frame theorem therefore
assumes a well-formed record. -/
def appendDone (v : JVal) (name : String) : JVal :=
  match v with
  | .jarr xs => .jarr (xs ++ [.jstr name])
  | v => v

/-- Embeds the commit step on the parsed JSON object (Loop.py lines
120-122): the record is the association list of its fields; the `done`
entry's array gains one string and every other entry is carried through to
`save_state` untouched. -/
def commitRecord (st : List (String × JVal)) (name : String) : List (String × JVal) :=
  st.map fun kv => if kv.1 = "done" then (kv.1, appendDone kv.2 name) else kv

/-- The verification loop fails exactly when some configured command would
exit non-zero. -/
lemma runVerification_false_iff (codes : List Nat) :
    (runVerification codes).2 = false ↔ ∃ c ∈ codes, c ≠ 0 := by
  induction codes with
  | nil => simp [runVerification]
  | cons rc rest ih =>
      by_cases hrc : rc = 0
      · subst hrc
        simp [runVerification, ih]
      · simp [runVerification, hrc]

/-- Equation for `iteration` when every spec is already done. -/
lemma iteration_none {env : Env} {done : List String}
    (h : get_next_spec env.files done = none) :
    iteration env done = (.allDone, [], done) := by
  simp [iteration, h]

/-- Equation for `iteration` when the agent exits non-zero on the selected
spec. -/
lemma iteration_agent_fail {env : Env} {done : List String} {spec : String}
    (h : get_next_spec env.files done = some spec) (ha : env.agentCode spec ≠ 0) :
    iteration env done
      = (.haltedAgent spec, [.agentInvoked spec (env.agentCode spec)], done) := by
  simp [iteration, h, ha]

/-- Equation for `iteration` when the agent succeeds and a verification
command fails. -/
lemma iteration_verify_fail {env : Env} {done : List String} {spec : String}
    (h : get_next_spec env.files done = some spec) (ha : env.agentCode spec = 0)
    (hv : (runVerification (env.verifyCodes spec)).2 = false) :
    iteration env done
      = (.haltedVerify spec,
          .agentInvoked spec 0
            :: (runVerification (env.verifyCodes spec)).1.map (Event.verifyStep spec),
          done) := by
  simp [iteration, h, ha, hv]

/-- Equation for `iteration` when the agent succeeds and every verification
command passes. -/
lemma iteration_commit {env : Env} {done : List String} {spec : String}
    (h : get_next_spec env.files done = some spec) (ha : env.agentCode spec = 0)
    (hv : (runVerification (env.verifyCodes spec)).2 = true) :
    iteration env done
      = (.committed spec,
          .agentInvoked spec 0
              :: (runVerification (env.verifyCodes spec)).1.map (Event.verifyStep spec)
            ++ [.stateSaved (done ++ [spec])],
          done ++ [spec]) := by
  simp [iteration, h, ha, hv]

/-- Equation for a loop pass that finds nothing left to do. -/
lemma runLoop_succ_none {env : Env} {done : List String} {fuel : Nat}
    (h : get_next_spec env.files done = none) :
    runLoop env (fuel + 1) done = ⟨.completed, [], done⟩ := by
  simp only [runLoop]
  rw [iteration_none h]

/-- Equation for a loop pass halted by the agent. -/
lemma runLoop_succ_agent_fail {env : Env} {done : List String} {spec : String} {fuel : Nat}
    (h : get_next_spec env.files done = some spec) (ha : env.agentCode spec ≠ 0) :
    runLoop env (fuel + 1) done
      = ⟨.haltedAgent spec, [.agentInvoked spec (env.agentCode spec)], done⟩ := by
  simp only [runLoop]
  rw [iteration_agent_fail h ha]

/-- Equation for a loop pass halted by verification. -/
lemma runLoop_succ_verify_fail {env : Env} {done : List String} {spec : String} {fuel : Nat}
    (h : get_next_spec env.files done = some spec) (ha : env.agentCode spec = 0)
    (hv : (runVerification (env.verifyCodes spec)).2 = false) :
    runLoop env (fuel + 1) done
      = ⟨.haltedVerify spec,
          .agentInvoked spec 0
            :: (runVerification (env.verifyCodes spec)).1.map (Event.verifyStep spec),
          done⟩ := by
  simp only [runLoop]
  rw [iteration_verify_fail h ha hv]

/-- Equation for a loop pass that commits the selected spec. -/
lemma runLoop_succ_commit {env : Env} {done : List String} {spec : String} {fuel : Nat}
    (h : get_next_spec env.files done = some spec) (ha : env.agentCode spec = 0)
    (hv : (runVerification (env.verifyCodes spec)).2 = true) :
    runLoop env (fuel + 1) done
      = ⟨(runLoop env fuel (done ++ [spec])).outcome,
          (.agentInvoked spec 0
              :: (runVerification (env.verifyCodes spec)).1.map (Event.verifyStep spec)
            ++ [.stateSaved (done ++ [spec])])
            ++ (runLoop env fuel (done ++ [spec])).events,
          (runLoop env fuel (done ++ [spec])).final⟩ := by
  simp only [runLoop]
  rw [iteration_commit h ha hv]

/-- Across a run, the persisted `done` list only ever gets extended. -/
lemma runLoop_final_grows (env : Env) :
    ∀ (fuel : Nat) (done : List String), ∃ t, (runLoop env fuel done).final = done ++ t := by
  intro fuel
  induction fuel with
  | zero => exact fun done => ⟨[], by simp [runLoop]⟩
  | succ n ih =>
      intro done
      cases hsel : get_next_spec env.files done with
      | none => exact ⟨[], by simp [runLoop_succ_none hsel]⟩
      | some spec =>
          by_cases ha : env.agentCode spec = 0
          · by_cases hv : (runVerification (env.verifyCodes spec)).2 = true
            · obtain ⟨t, ht⟩ := ih (done ++ [spec])
              exact ⟨[spec] ++ t, by simp [runLoop_succ_commit hsel ha hv, ht]⟩
            · refine ⟨[], ?_⟩
              rw [runLoop_succ_verify_fail hsel ha (by simpa using hv)]
              simp
          · exact ⟨[], by simp [runLoop_succ_agent_fail hsel ha]⟩

/-- In a sorted list, the element `find?` returns is below every element
satisfying the predicate. -/
lemma find?_sorted_min {l : List String} {p : String → Bool} {u : String}
    (hs : List.Sorted nameLe l) (hf : l.find? p = some u) :
    ∀ v ∈ l, p v = true → nameLe u v := by
  induction l with
  | nil => cases hf
  | cons a t ih =>
      by_cases hpa : p a = true
      · rw [List.find?_cons_of_pos _ hpa] at hf
        obtain rfl : a = u := by injection hf
        intro v hv _
        rcases List.mem_cons.mp hv with rfl | hvt
        · exact le_refl _
        · exact List.rel_of_sorted_cons hs v hvt
      · rw [List.find?_cons_of_neg _ (by simpa using hpa)] at hf
        intro v hv hpv
        rcases List.mem_cons.mp hv with rfl | hvt
        · exact absurd hpv hpa
        · exact ih hs.of_cons hf v hvt hpv

/-- C2: `get_next_spec` scans the units in ascending name order and returns
the first whose name is not in the completed list: a returned unit is a
discovered unit, is unfinished, and is below every unfinished discovered
unit; the result is `none` exactly when every discovered unit is completed;
and on an empty source collection the result is `none` (no error). -/
theorem get_next_spec_first_unfinished (files done : List String) :
    (∀ u, get_next_spec files done = some u →
        u ∈ files ∧ u ∉ done ∧ ∀ v ∈ files, v ∉ done → nameLe u v) ∧
    (get_next_spec files done = none ↔ ∀ u ∈ files, u ∈ done) ∧
    get_next_spec [] done = none := by
  have hperm : (sortNames files).Perm files := List.perm_insertionSort _ _
  refine ⟨?_, ?_, rfl⟩
  · intro u hu
    have hmem : u ∈ sortNames files := List.mem_of_find?_eq_some hu
    have hpu := List.find?_some hu
    have hsorted : List.Sorted nameLe (sortNames files) :=
      List.sorted_insertionSort nameLe files
    refine ⟨hperm.mem_iff.mp hmem, by simpa using hpu, ?_⟩
    intro v hv hvd
    exact find?_sorted_min hsorted hu v (hperm.mem_iff.mpr hv) (by simpa using hvd)
  · rw [get_next_spec, List.find?_eq_none]
    constructor
    · intro h u hu
      have := h u (hperm.mem_iff.mpr hu)
      simpa using this
    · intro h x hx
      simpa using h x (hperm.mem_iff.mp hx)

/-- Witness for C2, end-to-end scenario 2 of the spec: with progress
`{"01-a.md"}` the next selected unit is `"02-b.md"`, which is discovered,
unfinished and minimal among unfinished units. -/
theorem get_next_spec_first_unfinished_witness :
    "02-b.md" ∈ ["02-b.md", "01-a.md"] ∧ "02-b.md" ∉ ["01-a.md"] ∧
    ∀ v ∈ ["02-b.md", "01-a.md"], v ∉ ["01-a.md"] → nameLe "02-b.md" v :=
  (get_next_spec_first_unfinished ["02-b.md", "01-a.md"] ["01-a.md"]).1
    "02-b.md" (by decide)

/-- C3: verification is short-circuiting.  If the configured commands would
exit with codes `pre ++ c :: post` where every code in `pre` is zero and `c`
is non-zero, then the commands actually invoked are exactly `pre ++ [c]` —
the run stops at the first failing command, so the commands after it are
never invoked — and the result reports failure. -/
theorem runVerification_stops_at_first_failure (pre : List Nat) (c : Nat) (post : List Nat)
    (hpre : ∀ x ∈ pre, x = 0) (hc : c ≠ 0) :
    runVerification (pre ++ c :: post) = (pre ++ [c], false) := by
  induction pre with
  | nil => simp [runVerification, hc]
  | cons a t ih =>
      have ha : a = 0 := hpre a (by simp)
      have ht : ∀ x ∈ t, x = 0 := fun x hx => hpre x (by simp [hx])
      subst ha
      simp [runVerification, ih ht]

/-- Witness for C3, the spec's scenario: steps `[A, B, C]` with A passing,
B failing and C passing; only A and B are invoked and the run fails. -/
theorem runVerification_stops_at_first_failure_witness :
    (∀ x ∈ [(0 : Nat)], x = 0) ∧ (1 : Nat) ≠ 0 ∧
    runVerification [0, 1, 0] = ([0, 1], false) :=
  ⟨by decide, by decide,
    runVerification_stops_at_first_failure [0] 1 [0] (by decide) (by decide)⟩

/-- C7: `run_claude` hands the whole task text to the external agent on
standard input — the payload equals the prompt exactly, untruncated — while
the argument vector is a fixed six-element list that does not depend on the
prompt, so no task description can overflow a platform argv limit. -/
theorem run_claude_payload_on_stdin (prompt : String) :
    (run_claude prompt).stdinPayload = prompt ∧
    (run_claude prompt).argv
      = ["claude", "-p", "--permission-mode", "acceptEdits", "--add-dir", "."] ∧
    ∀ other : String, (run_claude prompt).argv = (run_claude other).argv :=
  ⟨rfl, rfl, fun _ => rfl⟩

/-- Witness for C7 at a concrete prompt. -/
theorem run_claude_payload_on_stdin_witness :
    (run_claude "SPEC: implement the widget").stdinPayload
      = "SPEC: implement the widget" ∧
    (run_claude "SPEC: implement the widget").argv = (run_claude "").argv :=
  ⟨(run_claude_payload_on_stdin "SPEC: implement the widget").1,
    (run_claude_payload_on_stdin "SPEC: implement the widget").2.2 ""⟩

/-- C8: the resolver is deterministic and idempotent.  Its result depends
only on the set of discovered names (any reordering of the directory
listing gives the same answer) and on the completed list as a set; the call
hands the completed list back unchanged — the body only tests membership —
and an immediately repeated call returns the same unit. -/
theorem get_next_spec_deterministic (files files' done done' : List String)
    (hfiles : files.Perm files') (hdone : ∀ x, x ∈ done ↔ x ∈ done') :
    get_next_spec files done = get_next_spec files' done' ∧
    (get_next_spec_call files done).2 = done ∧
    (get_next_spec_call files (get_next_spec_call files done).2).1
      = (get_next_spec_call files done).1 := by
  refine ⟨?_, rfl, rfl⟩
  have hsort : sortNames files = sortNames files' := by
    refine List.eq_of_perm_of_sorted
      (((List.perm_insertionSort _ _).trans hfiles).trans
        (List.perm_insertionSort nameLe files').symm)
      (List.sorted_insertionSort nameLe files) (List.sorted_insertionSort nameLe files')
  rw [get_next_spec, get_next_spec, hsort]
  congr 1
  funext s
  simp [hdone s]

/-- Witness for C8: a reordered listing and a completed list with a
duplicate (the same set) select the same unit. -/
theorem get_next_spec_deterministic_witness :
    get_next_spec ["02-b.md", "01-a.md"] ["01-a.md", "01-a.md"]
      = get_next_spec ["01-a.md", "02-b.md"] ["01-a.md"] :=
  (get_next_spec_deterministic _ _ _ _
    (List.Perm.swap "01-a.md" "02-b.md" []) (fun x => by simp)).1

/-- C9: when the specs directory is absent, `main` exits with status 1
before loading state or entering the loop: no agent invocation, no
verification command and no state-file write is attempted. -/
theorem specs_dir_absent_fatal (env : Env) (fuel : Nat) (h : env.specsExists = false) :
    main env fuel = .exitNoSpecsDir 1 ∧ mainEvents (main env fuel) = [] ∧ (1 : Nat) ≠ 0 := by
  simp [main, h, mainEvents]

/-- Witness for C9 at a concrete environment whose specs directory is
absent. -/
theorem specs_dir_absent_fatal_witness :
    main ⟨false, ["01-a.md"], none, fun _ => 0, fun _ => [0, 0]⟩ 5
      = .exitNoSpecsDir 1 ∧
    mainEvents (main ⟨false, ["01-a.md"], none, fun _ => 0, fun _ => [0, 0]⟩ 5) = [] :=
  ⟨(specs_dir_absent_fatal _ 5 rfl).1, (specs_dir_absent_fatal _ 5 rfl).2.1⟩

/-- C4: no partial credit.  If the selected unit's agent invocation exits
non-zero, or some verification command for it exits non-zero, then the loop
halts at that unit, the state file is never written during the rest of the
run (no `stateSaved` event), the persisted `done` list still equals its
value from before the unit was attempted, and a subsequent run over the
unchanged store reselects that same unit. -/
theorem failed_unit_not_committed (env : Env) (done : List String) (fuel : Nat) (spec : String)
    (hsel : get_next_spec env.files done = some spec)
    (hfail : env.agentCode spec ≠ 0 ∨ ∃ c ∈ env.verifyCodes spec, c ≠ 0) :
    ((runLoop env (fuel + 1) done).outcome = .haltedAgent spec ∨
      (runLoop env (fuel + 1) done).outcome = .haltedVerify spec) ∧
    (runLoop env (fuel + 1) done).final = done ∧
    (∀ d, Event.stateSaved d ∉ (runLoop env (fuel + 1) done).events) ∧
    get_next_spec env.files (runLoop env (fuel + 1) done).final = some spec := by
  by_cases ha : env.agentCode spec = 0
  · have hv : (runVerification (env.verifyCodes spec)).2 = false := by
      rcases hfail with h | h
      · exact absurd ha h
      · exact (runVerification_false_iff _).mpr h
    rw [runLoop_succ_verify_fail hsel ha hv]
    refine ⟨Or.inr rfl, rfl, ?_, hsel⟩
    intro d hd
    simp [List.mem_map] at hd
  · rw [runLoop_succ_agent_fail hsel ha]
    refine ⟨Or.inl rfl, rfl, ?_, hsel⟩
    intro d hd
    simp at hd

/-- Witness for C4, end-to-end scenario 3 of the spec: progress is
`["01-a.md"]`, the agent fails on `"02-b.md"`; the run halts, progress is
unchanged, nothing is saved, and the resolver reselects `"02-b.md"`. -/
theorem failed_unit_not_committed_witness :
    (runLoop ⟨true, ["01-a.md", "02-b.md"], some ["01-a.md"], fun _ => 1, fun _ => [0, 0]⟩
        1 ["01-a.md"]).final = ["01-a.md"] ∧
    (∀ d, Event.stateSaved d ∉
      (runLoop ⟨true, ["01-a.md", "02-b.md"], some ["01-a.md"], fun _ => 1, fun _ => [0, 0]⟩
        1 ["01-a.md"]).events) ∧
    get_next_spec ["01-a.md", "02-b.md"]
      (runLoop ⟨true, ["01-a.md", "02-b.md"], some ["01-a.md"], fun _ => 1, fun _ => [0, 0]⟩
        1 ["01-a.md"]).final = some "02-b.md" :=
  (failed_unit_not_committed _ _ 0 "02-b.md" (by decide) (Or.inl (by decide))).2

/-- Saved states split over a concatenation of traces. -/
lemma savedStates_append (l₁ l₂ : List Event) :
    savedStates (l₁ ++ l₂) = savedStates l₁ ++ savedStates l₂ := by
  induction l₁ with
  | nil => rfl
  | cons e es ih => cases e <;> simp [savedStates, ih]

/-- A block of verification-command events saves no state. -/
lemma savedStates_verify_block (spec : String) (codes : List Nat) :
    savedStates (codes.map (Event.verifyStep spec)) = [] := by
  induction codes with
  | nil => rfl
  | cons c cs ih => simp [savedStates, ih]

/-- Saved states of one committed pass followed by the rest of the run. -/
lemma savedStates_commit_trace (spec : String) (codes : List Nat) (d : List String)
    (rest : List Event) :
    savedStates ((.agentInvoked spec 0 :: codes.map (Event.verifyStep spec)
        ++ [.stateSaved d]) ++ rest)
      = d :: savedStates rest := by
  simp [savedStates, savedStates_append, savedStates_verify_block]

/-- Each state-file write extends the previously persisted list by exactly
one identifier. -/
lemma savedStates_chain (env : Env) :
    ∀ (fuel : Nat) (done : List String),
      List.Chain' (fun a b => ∃ x, b = a ++ [x])
        (done :: savedStates (runLoop env fuel done).events) := by
  intro fuel
  induction fuel with
  | zero => intro done; simp [runLoop, savedStates]
  | succ n ih =>
      intro done
      cases hsel : get_next_spec env.files done with
      | none => simp [runLoop_succ_none hsel, savedStates]
      | some spec =>
          by_cases ha : env.agentCode spec = 0
          · by_cases hv : (runVerification (env.verifyCodes spec)).2 = true
            · rw [runLoop_succ_commit hsel ha hv]
              simp only [savedStates_commit_trace]
              exact List.Chain'.cons ⟨spec, rfl⟩ (ih (done ++ [spec]))
            · rw [runLoop_succ_verify_fail hsel ha (by simpa using hv)]
              simp [savedStates, savedStates_verify_block, savedStates_append]
          · rw [runLoop_succ_agent_fail hsel ha]
            simp [savedStates]

/-- Every list the run writes to the state file extends the initial one. -/
lemma savedStates_extend (env : Env) :
    ∀ (fuel : Nat) (done : List String),
      ∀ d ∈ savedStates (runLoop env fuel done).events, ∃ t, d = done ++ t := by
  intro fuel
  induction fuel with
  | zero => intro done d hd; simp [runLoop, savedStates] at hd
  | succ n ih =>
      intro done d hd
      cases hsel : get_next_spec env.files done with
      | none => rw [runLoop_succ_none hsel] at hd; simp [savedStates] at hd
      | some spec =>
          by_cases ha : env.agentCode spec = 0
          · by_cases hv : (runVerification (env.verifyCodes spec)).2 = true
            · rw [runLoop_succ_commit hsel ha hv, savedStates_commit_trace] at hd
              rcases List.mem_cons.mp hd with rfl | hd
              · exact ⟨[spec], rfl⟩
              · obtain ⟨t, ht⟩ := ih (done ++ [spec]) d hd
                exact ⟨[spec] ++ t, by simp [ht]⟩
            · rw [runLoop_succ_verify_fail hsel ha (by simpa using hv)] at hd
              simp [savedStates, savedStates_verify_block, savedStates_append] at hd
          · rw [runLoop_succ_agent_fail hsel ha] at hd
            simp [savedStates] at hd

/-- C5: the completed list is monotone within a run.  Along the sequence of
state-file writes the loop performs, each write extends the previously
persisted list by exactly one identifier, every written list extends the
initial one, and the final persisted list extends the initial one — no
identifier is ever removed by any operation of the run. -/
theorem commits_monotone (env : Env) (fuel : Nat) (done : List String) :
    List.Chain' (fun a b => ∃ x, b = a ++ [x])
      (done :: savedStates (runLoop env fuel done).events) ∧
    (∀ d ∈ savedStates (runLoop env fuel done).events, ∃ t, d = done ++ t) ∧
    (∃ t, (runLoop env fuel done).final = done ++ t) :=
  ⟨savedStates_chain env fuel done, savedStates_extend env fuel done,
    runLoop_final_grows env fuel done⟩

/-- Witness for C5: a run that commits `"01-a.md"` then `"02-b.md"` from an
empty store writes a strictly growing chain of lists, and each written list
extends the empty initial list. -/
theorem commits_monotone_witness :
    List.Chain' (fun a b => ∃ x, b = a ++ [x])
      ([] :: savedStates
        (runLoop ⟨true, ["02-b.md", "01-a.md"], none, fun _ => 0, fun _ => [0, 0]⟩
          3 []).events) ∧
    (∃ t, (["01-a.md"] : List String) = [] ++ t) :=
  ⟨(commits_monotone ⟨true, ["02-b.md", "01-a.md"], none, fun _ => 0, fun _ => [0, 0]⟩
      3 []).1,
    (commits_monotone ⟨true, ["02-b.md", "01-a.md"], none, fun _ => 0, fun _ => [0, 0]⟩
      3 []).2.1 ["01-a.md"] (by decide)⟩

/-- C6: completion exactly reflects observed success.  Over any run, a unit
name is in the persisted completed list when the run ends iff it was there
when the run started, or the run's trace records the agent exiting zero for
that unit and the verification pipeline passing on the exit codes its
commands would return — the commit path allows no weaker condition.
Chaining runs, a name ever recorded traces back to a run that observed
both. -/
theorem completed_iff_verified (env : Env) (fuel : Nat) (done : List String) (u : String) :
    u ∈ (runLoop env fuel done).final ↔
      u ∈ done ∨
        (Event.agentInvoked u 0 ∈ (runLoop env fuel done).events ∧
          (runVerification (env.verifyCodes u)).2 = true) := by
  induction fuel generalizing done with
  | zero => simp [runLoop]
  | succ n ih =>
      cases hsel : get_next_spec env.files done with
      | none => simp [runLoop_succ_none hsel]
      | some spec =>
          by_cases ha : env.agentCode spec = 0
          · by_cases hv : (runVerification (env.verifyCodes spec)).2 = true
            · rw [runLoop_succ_commit hsel ha hv]
              dsimp only
              by_cases hu : u = spec
              · obtain ⟨t, ht⟩ := runLoop_final_grows env n (done ++ [spec])
                constructor
                · intro _
                  refine Or.inr ⟨by simp [hu], ?_⟩
                  rw [hu]
                  exact hv
                · intro _
                  rw [ht]
                  simp [hu]
              · rw [ih (done ++ [spec])]
                simp [List.mem_append, hu]
            · rw [runLoop_succ_verify_fail hsel ha (by simpa using hv)]
              dsimp only
              constructor
              · exact Or.inl
              · rintro (h | ⟨hev, hpass⟩)
                · exact h
                · exfalso
                  rcases List.mem_cons.mp hev with heq | hmap
                  · injection heq with h1 h2
                    rw [h1] at hpass
                    rw [hpass] at hv
                    exact hv rfl
                  · simp [List.mem_map] at hmap
          · rw [runLoop_succ_agent_fail hsel ha]
            dsimp only
            constructor
            · exact Or.inl
            · rintro (h | ⟨hev, -⟩)
              · exact h
              · exfalso
                rw [List.mem_singleton] at hev
                injection hev with h1 h2
                exact ha h2.symm

/-- Witness for C6: from an empty store, after a run in which the agent and
both verification commands succeed on `"01-a.md"`, that unit is recorded
complete — derived from the trace facts through the equivalence. -/
theorem completed_iff_verified_witness :
    "01-a.md" ∈ (runLoop ⟨true, ["01-a.md"], none, fun _ => 0, fun _ => [0, 0]⟩ 2 []).final :=
  (completed_iff_verified ⟨true, ["01-a.md"], none, fun _ => 0, fun _ => [0, 0]⟩
      2 [] "01-a.md").mpr
    (Or.inr ⟨by decide, by decide⟩)

/-- Lookup of any key other than `"done"` is unchanged by the commit step. -/
lemma lookup_commitRecord_ne (st : List (String × JVal)) (name k : String)
    (hk : k ≠ "done") :
    (commitRecord st name).lookup k = st.lookup k := by
  induction st with
  | nil => rfl
  | cons kv t ih =>
      obtain ⟨a, v⟩ := kv
      simp only [commitRecord, List.map_cons] at ih ⊢
      rcases eq_or_ne k a with rfl | hka
      · rw [if_neg (by simpa using hk)]
        simp [List.lookup]
      · have h1 : (k == a) = false := beq_eq_false_iff_ne.mpr hka
        by_cases ha : a = "done"
        · subst ha
          rw [if_pos rfl]
          simpa [List.lookup, h1] using ih
        · rw [if_neg (by simpa using ha)]
          simpa [List.lookup, h1] using ih

/-- Lookup of `"done"` after the commit step: the array gained exactly the
committed name at its end. -/
lemma lookup_commitRecord_done (st : List (String × JVal)) (name : String) :
    ∀ xs, st.lookup "done" = some (.jarr xs) →
      (commitRecord st name).lookup "done" = some (.jarr (xs ++ [.jstr name])) := by
  induction st with
  | nil => intro xs h; cases h
  | cons kv t ih =>
      obtain ⟨a, v⟩ := kv
      intro xs h
      simp only [commitRecord, List.map_cons] at ih ⊢
      by_cases ha : a = "done"
      · subst ha
        simp only [List.lookup, beq_self_eq_true] at h
        injection h with h
        subst h
        rw [if_pos rfl]
        simp [List.lookup, appendDone]
      · have h1 : (("done" : String) == a) = false := beq_eq_false_iff_ne.mpr (Ne.symm ha)
        simp only [List.lookup, h1] at h
        rw [if_neg (by simpa using ha)]
        simpa [List.lookup, h1] using ih xs h

/-- C10: the commit step modifies only the `"done"` field of the persisted
record.  For a well-formed record — `"done"` holds an array — appending one
identifier and saving leaves every other top-level field's value exactly as
loaded, while `"done"` gains exactly that one string at the end. -/
theorem commit_modifies_only_done (st : List (String × JVal)) (name k : String)
    (hk : k ≠ "done") :
    (commitRecord st name).lookup k = st.lookup k ∧
    ∀ xs, st.lookup "done" = some (.jarr xs) →
      (commitRecord st name).lookup "done" = some (.jarr (xs ++ [.jstr name])) :=
  ⟨lookup_commitRecord_ne st name k hk, lookup_commitRecord_done st name⟩

/-- Witness for C10 on a record with an extra `"version"` field: committing
`"01-a.md"` leaves `"version"` untouched and appends to `"done"`. -/
theorem commit_modifies_only_done_witness :
    ("version" : String) ≠ "done" ∧
    (commitRecord [("done", JVal.jarr []), ("version", JVal.jnum 1)] "01-a.md").lookup
        "version" = some (JVal.jnum 1) ∧
    (commitRecord [("done", JVal.jarr []), ("version", JVal.jnum 1)] "01-a.md").lookup
        "done" = some (JVal.jarr [JVal.jstr "01-a.md"]) :=
  ⟨by decide,
    by
      rw [(commit_modifies_only_done [("done", JVal.jarr []), ("version", JVal.jnum 1)]
        "01-a.md" "version" (by decide)).1]
      rfl,
    (commit_modifies_only_done [("done", JVal.jarr []), ("version", JVal.jnum 1)]
      "01-a.md" "version" (by decide)).2 [] rfl⟩

/-- C1, settled against the source: `save_state` is not atomic.  The write
is a plain in-place `Path.write_text` with no temporary file and no rename,
so a crash 3 bytes into committing `"01-a.md"` over the pre-commit record
`{"done": []}` leaves the state file holding a strict, non-empty prefix of
the post-commit text — a truncated intermediate that equals neither the
pre-commit record's text nor the post-commit record's text (and is not
parseable JSON), which a subsequent load would hit. -/
theorem save_state_crash_leaves_truncated_record :
    save_state_crashed ["01-a.md"] 3 ≠ (dumpState []).data ∧
    save_state_crashed ["01-a.md"] 3 ≠ (dumpState ["01-a.md"]).data ∧
    ∃ t, save_state_crashed ["01-a.md"] 3 ++ t = (dumpState ["01-a.md"]).data ∧ t ≠ [] :=
  ⟨by decide, by decide,
    ⟨(dumpState ["01-a.md"]).data.drop 3, by decide, by decide⟩⟩

end Loop
